import Mathlib

/-!
# Verification of the ABI coder dispatcher (`packages/abi/src.ts/abi-coder.ts`)

This file embeds the `AbiCoder` dispatcher from `abi-coder.ts` and, where the
repository's coder implementations (`coders/*.ts`) are not available, models
the coder behaviour from the design specification (§4.2-§4.7): word-aligned
encoding, the head/tail algorithm with composite-relative offsets, and the
mirroring decoder.  Bytes are modelled as natural numbers (`< 256` in valid
data); buffers are `List Nat`; machine integers are `Nat`/`Int` with explicit
bounds; fallible operations return `Except AbiError`.
-/

set_option maxHeartbeats 1600000
set_option maxRecDepth 16000

namespace Abi

/-- Error classification following the spec's error taxonomy (§7) and the
`@ethersproject/errors` codes used by `abi-coder.ts`.  `INTERNAL` marks
failures that are never user-triggerable from parser-produced descriptors
(e.g. the JS crash on a null `arrayChildren`). -/
inductive ErrorCode where
  | INVALID_ARGUMENT
  | NUMERIC_RANGE
  | BUFFER_OVERRUN
  | INTERNAL
  deriving DecidableEq

/-- An error surfaced by the coder: the message passed to
`errors.throwError` plus its error-code classification.  The auxiliary
`params` object of `throwError` is not modelled. -/
structure AbiError where
  message : String
  code : ErrorCode
  deriving DecidableEq

/-- The structured type descriptor (`ParamType` from `./fragments`) as
consumed by `AbiCoder._getCoder`: field for field the properties the
dispatcher reads (`name`, `type`, `baseType`, `arrayLength`,
`arrayChildren`, `components`).  `arrayLength = -1` denotes a
dynamic-length array; `none` models JS `null`. -/
inductive ParamType where
  | mk (name : String) (type : String) (baseType : String)
       (arrayLength : Int) (arrayChildren : Option ParamType)
       (components : Option (List ParamType))

def ParamType.name : ParamType → String
  | .mk n _ _ _ _ _ => n

def ParamType.type : ParamType → String
  | .mk _ t _ _ _ _ => t

def ParamType.baseType : ParamType → String
  | .mk _ _ b _ _ _ => b

def ParamType.arrayLength : ParamType → Int
  | .mk _ _ _ l _ _ => l

def ParamType.arrayChildren : ParamType → Option ParamType
  | .mk _ _ _ _ c _ => c

def ParamType.components : ParamType → Option (List ParamType)
  | .mk _ _ _ _ _ cs => cs

/-- The Coder tree produced by the dispatcher: one variant per concrete
coder class imported by `abi-coder.ts`.  `number` stores the byte width
(`size / 8` as passed to `NumberCoder`) and signedness; `fixedBytesNaN`
records the degenerate `FixedBytesCoder(NaN)` that `_getCoder` builds when
the `bytes` regex matches with an empty suffix (JS `parseInt("")` is `NaN`,
which passes both the `=== 0` and `> 32` checks). -/
inductive Coder where
  | address (name : String)
  | bool (name : String)
  | string (name : String)
  | bytes (name : String)
  | number (size : Nat) (signed : Bool) (name : String)
  | fixedBytes (size : Nat) (name : String)
  | fixedBytesNaN (name : String)
  | null (name : String)
  | array (child : Coder) (length : Int) (name : String)
  | tuple (children : List Coder) (name : String)

mutual

/-- Modelled from the spec: static/dynamic classification (§4.2).  Scalars
are static; `string` and variable-length `bytes` are dynamic; an array is
dynamic when its length is variable or its element coder is dynamic; a
tuple is dynamic when any component is dynamic. -/
def Coder.isDynamic : Coder → Bool
  | .string _ => true
  | .bytes _ => true
  | .array c len _ => len < 0 || c.isDynamic
  | .tuple cs _ => Coder.anyDynamic cs
  | _ => false

/-- Modelled from the spec: `anyDynamic cs` is true when some coder in the
list is dynamic (§4.2, tuple case). -/
def Coder.anyDynamic : List Coder → Bool
  | [] => false
  | c :: cs => c.isDynamic || Coder.anyDynamic cs

end

mutual

/-- The shape guarantee `_getCoder` gives about fixed-size byte widths:
every `FixedBytesCoder` in the tree has size at most 32 (the word size),
so its one-word encoding is well formed. -/
def Coder.sizesOk : Coder → Bool
  | .fixedBytes sz _ => sz ≤ 32
  | .array c _ _ => c.sizesOk
  | .tuple cs _ => Coder.sizesOkList cs
  | _ => true

/-- `Coder.sizesOk` for every coder in a list. -/
def Coder.sizesOkList : List Coder → Bool
  | [] => true
  | c :: cs => c.sizesOk && Coder.sizesOkList cs

end

/-- The regular expression `^(u?int)([0-9]*)$` (`paramTypeNumber`,
abi-coder.ts line 24), applied to the character list of a type spelling:
returns the matched kind (`"uint"` or `"int"`) and the digit suffix. -/
def matchNumberChars : List Char → Option (String × List Char)
  | 'u' :: rest =>
    match rest with
    | 'i' :: 'n' :: 't' :: ds => if ds.all Char.isDigit then some ("uint", ds) else none
    | _ => none
  | 'i' :: 'n' :: 't' :: ds => if ds.all Char.isDigit then some ("int", ds) else none
  | _ => none

/-- The regular expression `^bytes([0-9]*)$` (`paramTypeBytes`,
abi-coder.ts line 23), applied to the character list of a type spelling:
returns the (possibly empty) digit suffix. -/
def matchBytesChars : List Char → Option (List Char)
  | 'b' :: 'y' :: 't' :: 'e' :: 's' :: ds => if ds.all Char.isDigit then some ds else none
  | _ => none

/-- JS `parseInt` on a string of decimal digits. -/
def parseDigits (ds : List Char) : Nat :=
  ds.foldl (fun a c => 10 * a + (c.toNat - 48)) 0

mutual

/-- Embedding of `AbiCoder._getCoder` (abi-coder.ts lines 37-88): the JS
`switch` on `param.baseType` becomes an equality chain; then the
`u?int[0-9]*` regex branch; then the `bytes[0-9]*` regex branch; then the
final `invalid type` throw. -/
def getCoder : ParamType → Except AbiError Coder
  | .mk name ty baseTy alen achildren comps =>
    if baseTy = "address" then .ok (.address name)
    else if baseTy = "bool" then .ok (.bool name)
    else if baseTy = "string" then .ok (.string name)
    else if baseTy = "bytes" then .ok (.bytes name)
    else if baseTy = "array" then
      (getCoderChild achildren).map (fun c => .array c alen name)
    else if baseTy = "tuple" then
      (getCoderComps comps).map (fun cs => .tuple cs name)
    else if baseTy = "" then .ok (.null name)
    else
      match matchNumberChars ty.data with
      | some (kind, ds) =>
        let size := if ds.isEmpty then 256 else parseDigits ds
        if size = 0 ∨ 256 < size ∨ size % 8 ≠ 0 then
          .error ⟨"invalid " ++ kind ++ " bit length", .INVALID_ARGUMENT⟩
        else .ok (.number (size / 8) (kind == "int") name)
      | none =>
        match matchBytesChars ty.data with
        | some ds =>
          if ds.isEmpty then
            .ok (.fixedBytesNaN name)
          else
            let size := parseDigits ds
            if size = 0 ∨ 32 < size then
              .error ⟨"invalid bytes length", .INVALID_ARGUMENT⟩
            else .ok (.fixedBytes size name)
        | none => .error ⟨"invalid type", .INVALID_ARGUMENT⟩

/-- The recursive call `this._getCoder(param.arrayChildren)` (line 49): on
a JS `null` child the property access inside `_getCoder` would crash,
modelled as an `INTERNAL` error. -/
def getCoderChild : Option ParamType → Except AbiError Coder
  | some p => getCoder p
  | none => .error ⟨"cannot read baseType of null", .INTERNAL⟩

/-- The tuple branch `(param.components || []).map(...)` (lines 51-53):
absent components behave as the empty list. -/
def getCoderComps : Option (List ParamType) → Except AbiError (List Coder)
  | some ps => getCoderList ps
  | none => getCoderList []

/-- Resolution mapped over a list of descriptors; the first failure
propagates, as a thrown exception does in the JS `Array.map`. -/
def getCoderList : List ParamType → Except AbiError (List Coder)
  | [] => .ok []
  | p :: ps => do
    let c ← getCoder p
    let cs ← getCoderList ps
    .ok (c :: cs)

end

/-- ABI values, mirroring the JS values accepted/produced by the coders.
Strings are represented by their UTF-8 byte sequences; addresses by their
160-bit numeric value; byte strings by lists of byte values. -/
inductive Value where
  | addr (a : Nat)
  | boolV (b : Bool)
  | str (bs : List Nat)
  | bytesV (bs : List Nat)
  | num (i : Int)
  | nullV
  | arr (items : List Value)
  | tup (items : List Value)

/-- Big-endian byte representation: `beBytes k n` is the `k`-byte
big-endian encoding of `n % 256^k`. -/
def beBytes : Nat → Nat → List Nat
  | 0, _ => []
  | k + 1, n => beBytes k (n / 256) ++ [n % 256]

/-- Read a big-endian byte list as a natural number. -/
def fromBE (bs : List Nat) : Nat :=
  bs.foldl (fun a b => 256 * a + b) 0

/-- The length `n` rounded up to the next multiple of the 32-byte word
size (§4.3, `appendPadded`). -/
def padLen (n : Nat) : Nat := 32 * ((n + 31) / 32)

/-- Raw bytes followed by zero padding up to the next word boundary
(§4.3). -/
def padRight (bs : List Nat) : List Nat :=
  bs ++ List.replicate (padLen bs.length - bs.length) 0

/-- Two's-complement representation of an integer as an unsigned 256-bit
word value (§4.5, fixed-width integer encoding). -/
def intToTwos (i : Int) : Nat := (i % (2 ^ 256 : Int)).toNat

/-- Two's-complement interpretation of the low-order `w` bytes of a word
value (§4.5, fixed-width integer decoding). -/
def fromTwos (w : Nat) (n : Nat) : Int :=
  let m := n % 2 ^ (8 * w)
  if m < 2 ^ (8 * w - 1) then (m : Int) else (m : Int) - 2 ^ (8 * w)

/-- Modelled from the spec: the size of the head region of a composite
encoding (§4.7 step 2) - one 32-byte offset slot per dynamic member, the
member's own (inline) encoding size per static member.  Each list entry is
a member's full encoding paired with its dynamic flag. -/
def headLen (items : List (List Nat × Bool)) : Nat :=
  items.foldr (fun it acc => (if it.2 then 32 else it.1.length) + acc) 0

/-- Modelled from the spec: the total size of the tail region of a
composite encoding (§4.7 step 3) - the concatenated encodings of the
dynamic members. -/
def tailLen (items : List (List Nat × Bool)) : Nat :=
  items.foldr (fun it acc => (if it.2 then it.1.length else 0) + acc) 0

/-- Modelled from the spec: the head/tail layout (§4.7 step 3).  `H` is
the full head size and `t0` the size of tail content already emitted;
static members are written inline in the head, dynamic members contribute
a composite-relative offset word `H + t0` to the head and their encoding
to the tail. -/
def packAux (H : Nat) (t0 : Nat) : List (List Nat × Bool) → List Nat × List Nat
  | [] => ([], [])
  | (e, d) :: rest =>
    if d then
      let p := packAux H (t0 + e.length) rest
      (beBytes 32 (H + t0) ++ p.1, e ++ p.2)
    else
      let p := packAux H t0 rest
      (e ++ p.1, p.2)

/-- Modelled from the spec: a composite's total encoding is its head
region followed by its tail region (§4.7 step 4). -/
def pack (items : List (List Nat × Bool)) : List Nat :=
  (packAux (headLen items) 0 items).1 ++ (packAux (headLen items) 0 items).2

mutual

/-- Modelled from the spec: the encoders of the concrete coder classes
(`coders/*.ts`, absent from the available sources), following §4.5-§4.7:
address/bool/number/fixed-bytes encode one word, string/bytes encode a
length word plus right-padded content, the null coder encodes nothing,
arrays and tuples use the head/tail algorithm, and a dynamic-length array
writes its element count first.  Out-of-range numbers fail with the
numeric-range condition; malformed values fail as invalid arguments. -/
def encodeValue : Coder → Value → Except AbiError (List Nat)
  | .address _, .addr a =>
    if a < 2 ^ 160 then .ok (beBytes 32 a)
    else .error ⟨"invalid address", .INVALID_ARGUMENT⟩
  | .bool _, .boolV b => .ok (beBytes 32 (if b then 1 else 0))
  | .string _, .str bs => .ok (beBytes 32 bs.length ++ padRight bs)
  | .bytes _, .bytesV bs => .ok (beBytes 32 bs.length ++ padRight bs)
  | .number w signed _, .num i =>
    if signed then
      if -(2 ^ (8 * w - 1) : Int) ≤ i ∧ i < 2 ^ (8 * w - 1) then
        .ok (beBytes 32 (intToTwos i))
      else .error ⟨"value out-of-bounds", .NUMERIC_RANGE⟩
    else
      if 0 ≤ i ∧ i < (2 ^ (8 * w) : Int) then .ok (beBytes 32 (intToTwos i))
      else .error ⟨"value out-of-bounds", .NUMERIC_RANGE⟩
  | .fixedBytes sz _, .bytesV bs =>
    if bs.length = sz then .ok (bs ++ List.replicate (32 - sz) 0)
    else .error ⟨"incorrect data length", .INVALID_ARGUMENT⟩
  | .fixedBytesNaN _, _ => .error ⟨"invalid coder size", .INTERNAL⟩
  | .null _, .nullV => .ok []
  | .array c len _, .arr vs =>
    if len < 0 then
      (encodeSeq c vs).map (fun items => beBytes 32 vs.length ++ pack items)
    else if vs.length = len.toNat then
      (encodeSeq c vs).map (fun items => pack items)
    else .error ⟨"array value length mismatch", .INVALID_ARGUMENT⟩
  | .tuple cs _, .tup vs => (encodeParts cs vs).map (fun items => pack items)
  | _, _ => .error ⟨"invalid value for coder", .INVALID_ARGUMENT⟩

/-- Modelled from the spec: the member encodings of a homogeneous array,
each paired with the element coder's dynamic flag (§4.7). -/
def encodeSeq : Coder → List Value → Except AbiError (List (List Nat × Bool))
  | _, [] => .ok []
  | c, v :: vs => do
    let e ← encodeValue c v
    let rest ← encodeSeq c vs
    .ok ((e, c.isDynamic) :: rest)

/-- Modelled from the spec: the member encodings of a tuple, pairing each
component coder with its value in order (§4.7); an arity mismatch is an
invalid-argument failure. -/
def encodeParts : List Coder → List Value → Except AbiError (List (List Nat × Bool))
  | [], [] => .ok []
  | c :: cs, v :: vs => do
    let e ← encodeValue c v
    let rest ← encodeParts cs vs
    .ok ((e, c.isDynamic) :: rest)
  | _, _ => .error ⟨"types/values length mismatch", .INVALID_ARGUMENT⟩

end

/-- Modelled from the spec: `Reader.readWord` (§4.4) - 32 bytes at `pos`,
failing with a buffer-overrun condition when fewer than 32 bytes remain. -/
def readWord (data : List Nat) (pos : Nat) : Except AbiError (List Nat) :=
  if pos + 32 ≤ data.length then .ok ((data.drop pos).take 32)
  else .error ⟨"data out-of-bounds", .BUFFER_OVERRUN⟩

/-- Modelled from the spec: `Reader.readBytes n` (§4.4) - returns the
first `n` bytes while consuming `ceil(n/32)*32`, failing with a
buffer-overrun condition when that padded range exceeds the buffer. -/
def readBytesAt (data : List Nat) (pos n : Nat) : Except AbiError (List Nat) :=
  if pos + padLen n ≤ data.length then .ok ((data.drop pos).take n)
  else .error ⟨"data out-of-bounds", .BUFFER_OVERRUN⟩

mutual

/-- Modelled from the spec: the decoders of the concrete coder classes,
mirroring `encodeValue` per §4.4-§4.7 with the identity coercion (no
coercion hook supplied).  Returns the decoded value and the advanced
cursor.  Address decoding is strict (non-zero high-order bytes are
rejected, the policy the spec recommends); boolean decoding treats any
non-zero word as true (the spec's default).  Composite members are walked
in head order; a dynamic member's head word is read as a
composite-relative offset and the member is decoded through an
independent sub-cursor at `base + offset` (§4.7). -/
def decodeValue : Coder → List Nat → Nat → Except AbiError (Value × Nat)
  | .address _, data, pos => do
    let w ← readWord data pos
    if fromBE w < 2 ^ 160 then .ok (.addr (fromBE w), pos + 32)
    else .error ⟨"invalid address data", .INVALID_ARGUMENT⟩
  | .bool _, data, pos => do
    let w ← readWord data pos
    .ok (.boolV (fromBE w != 0), pos + 32)
  | .string _, data, pos => do
    let lw ← readWord data pos
    let bs ← readBytesAt data (pos + 32) (fromBE lw)
    .ok (.str bs, pos + 32 + padLen (fromBE lw))
  | .bytes _, data, pos => do
    let lw ← readWord data pos
    let bs ← readBytesAt data (pos + 32) (fromBE lw)
    .ok (.bytesV bs, pos + 32 + padLen (fromBE lw))
  | .number w signed _, data, pos => do
    let wd ← readWord data pos
    .ok (.num (if signed then fromTwos w (fromBE wd) else (fromBE wd : Int)), pos + 32)
  | .fixedBytes sz _, data, pos => do
    let wd ← readWord data pos
    .ok (.bytesV (wd.take sz), pos + 32)
  | .fixedBytesNaN _, _, _ => .error ⟨"invalid coder size", .INTERNAL⟩
  | .null _, _, pos => .ok (.nullV, pos)
  | .array c len _, data, pos =>
    if len < 0 then do
      let lw ← readWord data pos
      let r ← decodeSeq c (fromBE lw) data (pos + 32) (pos + 32)
      .ok (.arr r.1, r.2)
    else do
      let r ← decodeSeq c len.toNat data pos pos
      .ok (.arr r.1, r.2)
  | .tuple cs _, data, pos => do
    let r ← decodeParts cs data pos pos
    .ok (.tup r.1, r.2)

/-- Modelled from the spec: decoding `count` elements of a homogeneous
array with element coder `c`; `base` is the start of the composite's own
encoding (after any count word), `cursor` walks the head region (§4.7,
decode direction). -/
def decodeSeq : Coder → Nat → List Nat → Nat → Nat → Except AbiError (List Value × Nat)
  | _, 0, _, _, cursor => .ok ([], cursor)
  | c, n + 1, data, base, cursor =>
    if c.isDynamic then do
      let ow ← readWord data cursor
      let r ← decodeValue c data (base + fromBE ow)
      let rest ← decodeSeq c n data base (cursor + 32)
      .ok (r.1 :: rest.1, rest.2)
    else do
      let r ← decodeValue c data cursor
      let rest ← decodeSeq c n data base r.2
      .ok (r.1 :: rest.1, rest.2)

/-- Modelled from the spec: decoding the ordered components of a tuple,
one coder per member, with the same head-walk as `decodeSeq` (§4.7). -/
def decodeParts : List Coder → List Nat → Nat → Nat → Except AbiError (List Value × Nat)
  | [], _, _, cursor => .ok ([], cursor)
  | c :: cs, data, base, cursor =>
    if c.isDynamic then do
      let ow ← readWord data cursor
      let r ← decodeValue c data (base + fromBE ow)
      let rest ← decodeParts cs data base (cursor + 32)
      .ok (r.1 :: rest.1, rest.2)
    else do
      let r ← decodeValue c data cursor
      let rest ← decodeParts cs data base r.2
      .ok (r.1 :: rest.1, rest.2)

end

/-- Embedding of `AbiCoder.encode` (abi-coder.ts lines 100-114): the
length check, resolution of every type, the synthetic tuple coder named
`"_"`, and the tuple encoding into a fresh writer.  The writer's hex
serialization is left as the byte list it represents. -/
def encode (types : List ParamType) (values : List Value) : Except AbiError (List Nat) :=
  if types.length ≠ values.length then
    .error ⟨"types/values length mismatch", .INVALID_ARGUMENT⟩
  else do
    let cs ← getCoderList types
    encodeValue (.tuple cs "_") (.tup values)

/-- Embedding of `AbiCoder.decode` (abi-coder.ts lines 116-120):
resolution of every type and a synthetic tuple coder decode over a fresh
reader at offset 0.  The result is the decoded value tuple. -/
def decode (types : List ParamType) (data : List Nat) : Except AbiError Value := do
  let cs ← getCoderList types
  let r ← decodeValue (.tuple cs "_") data 0
  .ok r.1

mutual

/-- The valid domain of a coder (§8, round-trip property): the value has
the shape the coder expects, scalar values lie in their representable
ranges, byte contents are genuine bytes, widths lie in the ranges the
dispatcher guarantees, fixed-length arrays and tuples have matching
arities, and every length word, count word and offset word fits in one
256-bit word (expressed via a `2 ^ 256` bound on the node's own encoded
size and on dynamic counts). -/
def validV : Coder → Value → Bool
  | .address _, .addr a => a < 2 ^ 160
  | .bool _, .boolV _ => true
  | .string _, .str bs => bs.all (fun b => b < 256) && bs.length < 2 ^ 200
  | .bytes _, .bytesV bs => bs.all (fun b => b < 256) && bs.length < 2 ^ 200
  | .number w signed _, .num i =>
    (1 ≤ w && w ≤ 32) &&
      (if signed then decide (-(2 ^ (8 * w - 1) : Int) ≤ i ∧ i < 2 ^ (8 * w - 1))
       else decide (0 ≤ i ∧ i < (2 ^ (8 * w) : Int)))
  | .fixedBytes sz _, .bytesV bs =>
    (1 ≤ sz && sz ≤ 32) && bs.length = sz && bs.all (fun b => b < 256)
  | .null _, .nullV => true
  | .array c len _, .arr vs =>
    (if len < 0 then decide (vs.length < 2 ^ 200) else decide (vs.length = len.toNat)) &&
      validSeq c vs &&
      (match encodeValue (.array c len "") (.arr vs) with
       | .ok e => decide (e.length < 2 ^ 256)
       | .error _ => false)
  | .tuple cs _, .tup vs =>
    validParts cs vs &&
      (match encodeValue (.tuple cs "") (.tup vs) with
       | .ok e => decide (e.length < 2 ^ 256)
       | .error _ => false)
  | _, _ => false

/-- Validity of every element of a homogeneous array. -/
def validSeq : Coder → List Value → Bool
  | _, [] => true
  | c, v :: vs => validV c v && validSeq c vs

/-- Validity of a tuple's components against its coders, including the
arity match. -/
def validParts : List Coder → List Value → Bool
  | [], [] => true
  | c :: cs, v :: vs => validV c v && validParts cs vs
  | _, _ => false

end

/-- The invalid-argument validation stages of `encode`: the
`types`/`values` length check (lines 101-106), an invalid-argument
rejection while resolving a type (`_getCoder`), or an invalid-argument
rejection of the values by the resolved coders. -/
def validationRejects (types : List ParamType) (values : List Value) : Prop :=
  types.length ≠ values.length
    ∨ (∃ msg, getCoderList types = .error ⟨msg, .INVALID_ARGUMENT⟩)
    ∨ (∃ cs msg, getCoderList types = .ok cs ∧
        encodeValue (.tuple cs "_") (.tup values) = .error ⟨msg, .INVALID_ARGUMENT⟩)


/-- A segment of a buffer: `e` occupies positions `[p, p + e.length)` of
`data`. -/
def SegAt (data : List Nat) (p : Nat) (e : List Nat) : Prop :=
  (data.drop p).take e.length = e ∧ p + e.length ≤ data.length

/-! ## Inversion of the regular-expression models -/

theorem matchNumberChars_eq_some {l : List Char} {kind : String} {ds : List Char}
    (h : matchNumberChars l = some (kind, ds)) :
    (kind = "uint" ∧ l = 'u' :: 'i' :: 'n' :: 't' :: ds ∨
     kind = "int" ∧ l = 'i' :: 'n' :: 't' :: ds) ∧ ds.all Char.isDigit := by
  unfold matchNumberChars at h
  split at h
  · split at h
    · split at h
      · simp only [Option.some.injEq, Prod.mk.injEq] at h
        exact ⟨Or.inl ⟨h.1.symm, by simp [h.2]⟩, h.2 ▸ (by assumption)⟩
      · exact absurd h (by simp)
    · exact absurd h (by simp)
  · split at h
    · simp only [Option.some.injEq, Prod.mk.injEq] at h
      exact ⟨Or.inr ⟨h.1.symm, by simp [h.2]⟩, h.2 ▸ (by assumption)⟩
    · exact absurd h (by simp)
  · exact absurd h (by simp)

theorem matchBytesChars_eq_some {l : List Char} {ds : List Char}
    (h : matchBytesChars l = some ds) :
    l = 'b' :: 'y' :: 't' :: 'e' :: 's' :: ds ∧ ds.all Char.isDigit := by
  unfold matchBytesChars at h
  split at h
  · split at h
    · simp only [Option.some.injEq] at h
      exact ⟨by simp [h], h ▸ (by assumption)⟩
    · exact absurd h (by simp)
  · exact absurd h (by simp)

theorem uint_not_named {ty : String} {ds : List Char}
    (h : ty.data = 'u' :: 'i' :: 'n' :: 't' :: ds) :
    ty ≠ "address" ∧ ty ≠ "bool" ∧ ty ≠ "string" ∧ ty ≠ "bytes" ∧
      ty ≠ "array" ∧ ty ≠ "tuple" ∧ ty ≠ "" := by
  refine ⟨?_, ?_, ?_, ?_, ?_, ?_, ?_⟩ <;> intro hEq <;> subst hEq <;> simp_all

theorem int_not_named {ty : String} {ds : List Char}
    (h : ty.data = 'i' :: 'n' :: 't' :: ds) :
    ty ≠ "address" ∧ ty ≠ "bool" ∧ ty ≠ "string" ∧ ty ≠ "bytes" ∧
      ty ≠ "array" ∧ ty ≠ "tuple" ∧ ty ≠ "" := by
  refine ⟨?_, ?_, ?_, ?_, ?_, ?_, ?_⟩ <;> intro hEq <;> subst hEq <;> simp_all

theorem bytesN_not_named {ty : String} {ds : List Char}
    (h : ty.data = 'b' :: 'y' :: 't' :: 'e' :: 's' :: ds) (hne : ds ≠ []) :
    ty ≠ "address" ∧ ty ≠ "bool" ∧ ty ≠ "string" ∧ ty ≠ "bytes" ∧
      ty ≠ "array" ∧ ty ≠ "tuple" ∧ ty ≠ "" := by
  refine ⟨?_, ?_, ?_, ?_, ?_, ?_, ?_⟩ <;> intro hEq <;> subst hEq <;> simp_all

/-! ## Evaluation of `_getCoder` on the regex branches -/

theorem getCoder_number (name : String) {ty baseTy : String} (alen : Int)
    (ach : Option ParamType) (comps : Option (List ParamType)) {kind : String} {ds : List Char}
    (hb : baseTy = ty)
    (hm : matchNumberChars ty.data = some (kind, ds)) :
    getCoder (.mk name ty baseTy alen ach comps) =
      (if (if ds.isEmpty then 256 else parseDigits ds) = 0 ∨
          256 < (if ds.isEmpty then 256 else parseDigits ds) ∨
          (if ds.isEmpty then 256 else parseDigits ds) % 8 ≠ 0 then
         .error ⟨"invalid " ++ kind ++ " bit length", .INVALID_ARGUMENT⟩
       else .ok (.number ((if ds.isEmpty then 256 else parseDigits ds) / 8) (kind == "int") name)) := by
  obtain ⟨hshape, _⟩ := matchNumberChars_eq_some hm
  have hne : ty ≠ "address" ∧ ty ≠ "bool" ∧ ty ≠ "string" ∧ ty ≠ "bytes" ∧
      ty ≠ "array" ∧ ty ≠ "tuple" ∧ ty ≠ "" := by
    rcases hshape with ⟨_, hl⟩ | ⟨_, hl⟩
    · exact uint_not_named hl
    · exact int_not_named hl
  obtain ⟨h1, h2, h3, h4, h5, h6, h7⟩ := hne
  subst hb
  unfold getCoder
  rw [if_neg h1, if_neg h2, if_neg h3, if_neg h4, if_neg h5, if_neg h6, if_neg h7, hm]

theorem getCoder_bytesN (name : String) {ty baseTy : String} (alen : Int)
    (ach : Option ParamType) (comps : Option (List ParamType)) {ds : List Char}
    (hb : baseTy = ty)
    (hm : matchBytesChars ty.data = some ds) (hne : ds ≠ []) :
    getCoder (.mk name ty baseTy alen ach comps) =
      (if parseDigits ds = 0 ∨ 32 < parseDigits ds then
         .error ⟨"invalid bytes length", .INVALID_ARGUMENT⟩
       else .ok (.fixedBytes (parseDigits ds) name)) := by
  obtain ⟨hl, _⟩ := matchBytesChars_eq_some hm
  obtain ⟨h1, h2, h3, h4, h5, h6, h7⟩ := bytesN_not_named hl hne
  have hnum : matchNumberChars ty.data = none := by rw [hl]; rfl
  subst hb
  unfold getCoder
  rw [if_neg h1, if_neg h2, if_neg h3, if_neg h4, if_neg h5, if_neg h6, if_neg h7, hnum, hm]
  have hemp : ds.isEmpty = false := by
    cases ds with
    | nil => exact absurd rfl hne
    | cons a l => rfl
  dsimp only
  rw [hemp]
  simp only [Bool.false_eq_true, if_false]

/-! ## Claims about `_getCoder` resolution -/

/-- C3: for every type descriptor whose spelling matches `u?int[0-9]*`
(with the parser-guaranteed consistency `baseType = type` for scalar
spellings), resolution returns the fixed-width integer Coder whose bit
width is the numeric suffix (`NumberCoder` is parameterized by the byte
width, `size / 8`), defaulting to 256 when the suffix is absent, and fails
with an invalid-argument condition exactly when that value is not a
positive multiple of 8 or exceeds 256. -/
theorem claim3_number_resolution
    (name : String) {ty baseTy : String} (alen : Int) (ach : Option ParamType)
    (comps : Option (List ParamType)) {kind : String} {ds : List Char}
    (hb : baseTy = ty)
    (hm : matchNumberChars ty.data = some (kind, ds)) :
    (0 < (if ds.isEmpty then 256 else parseDigits ds) ∧
        (if ds.isEmpty then 256 else parseDigits ds) % 8 = 0 ∧
        (if ds.isEmpty then 256 else parseDigits ds) ≤ 256 →
      getCoder (.mk name ty baseTy alen ach comps) =
        .ok (.number ((if ds.isEmpty then 256 else parseDigits ds) / 8) (kind == "int") name)) ∧
    (¬(0 < (if ds.isEmpty then 256 else parseDigits ds) ∧
        (if ds.isEmpty then 256 else parseDigits ds) % 8 = 0 ∧
        (if ds.isEmpty then 256 else parseDigits ds) ≤ 256) →
      getCoder (.mk name ty baseTy alen ach comps) =
        .error ⟨"invalid " ++ kind ++ " bit length", .INVALID_ARGUMENT⟩) := by
  have hg := getCoder_number name alen ach comps hb hm
  constructor
  · intro h
    rw [hg, if_neg (by omega)]
  · intro h
    rw [hg, if_pos (by omega)]

/-- Witness for C3 at the descriptor for `uint256`. -/
theorem claim3_number_resolution_witness :
    getCoder (.mk "amount" "uint256" "uint256" 0 none none) =
      .ok (.number 32 false "amount") := by
  exact (claim3_number_resolution "amount" 0 none none rfl
    (show matchNumberChars ("uint256" : String).data = some ("uint", ['2','5','6']) from rfl)).1
    (by decide)

/-- C4: for every type descriptor whose spelling matches `bytes[0-9]+`
(with the parser-guaranteed consistency `baseType = type`), resolution
returns the fixed-size byte-array Coder parameterized by the suffix, and
fails with an invalid-argument condition exactly when the suffix lies
outside `[1, 32]`. -/
theorem claim4_fixed_bytes_resolution
    (name : String) {ty baseTy : String} (alen : Int) (ach : Option ParamType)
    (comps : Option (List ParamType)) {ds : List Char}
    (hb : baseTy = ty)
    (hm : matchBytesChars ty.data = some ds) (hne : ds ≠ []) :
    (1 ≤ parseDigits ds ∧ parseDigits ds ≤ 32 →
      getCoder (.mk name ty baseTy alen ach comps) = .ok (.fixedBytes (parseDigits ds) name)) ∧
    (¬(1 ≤ parseDigits ds ∧ parseDigits ds ≤ 32) →
      getCoder (.mk name ty baseTy alen ach comps) =
        .error ⟨"invalid bytes length", .INVALID_ARGUMENT⟩) := by
  have hg := getCoder_bytesN name alen ach comps hb hm hne
  constructor
  · intro h
    rw [hg, if_neg (by omega)]
  · intro h
    rw [hg, if_pos (by omega)]

/-- Witness for C4 at the descriptor for `bytes32`. -/
theorem claim4_fixed_bytes_resolution_witness :
    getCoder (.mk "hash" "bytes32" "bytes32" 0 none none) =
      .ok (.fixedBytes 32 "hash") := by
  exact (claim4_fixed_bytes_resolution "hash" 0 none none rfl
    (show matchBytesChars ("bytes32" : String).data = some ['3','2'] from rfl)
    (by decide)).1 (by decide)

/-- C5: a type descriptor that matches neither a named base kind nor the
`u?int[0-9]*` nor the `bytes[0-9]+` spellings (again under the parser
consistency `baseType = type`; a spelling matching `bytes[0-9]*` only via
an empty suffix is the spelling `bytes` itself, whose base kind is named)
fails to resolve with the `invalid type` invalid-argument condition. -/
theorem claim5_invalid_type
    (name : String) {ty baseTy : String} (alen : Int) (ach : Option ParamType)
    (comps : Option (List ParamType))
    (hb : baseTy = ty)
    (h1 : baseTy ≠ "address") (h2 : baseTy ≠ "bool") (h3 : baseTy ≠ "string")
    (h4 : baseTy ≠ "bytes") (h5 : baseTy ≠ "array") (h6 : baseTy ≠ "tuple")
    (h7 : baseTy ≠ "")
    (hnum : matchNumberChars ty.data = none)
    (hbytes : ∀ ds, matchBytesChars ty.data = some ds → ds = []) :
    getCoder (.mk name ty baseTy alen ach comps) =
      .error ⟨"invalid type", .INVALID_ARGUMENT⟩ := by
  subst hb
  unfold getCoder
  rw [if_neg h1, if_neg h2, if_neg h3, if_neg h4, if_neg h5, if_neg h6, if_neg h7, hnum]
  dsimp only
  cases hmb : matchBytesChars baseTy.data with
  | none => rfl
  | some ds =>
    have hds := hbytes ds hmb
    subst hds
    obtain ⟨hl, _⟩ := matchBytesChars_eq_some hmb
    exact absurd (String.ext (by rw [hl])) h4

/-- Witness for C5 at the unrecognized spelling `foo`. -/
theorem claim5_invalid_type_witness :
    getCoder (.mk "x" "foo" "foo" 0 none none) =
      .error ⟨"invalid type", .INVALID_ARGUMENT⟩ := by
  exact claim5_invalid_type "x" 0 none none rfl (by decide) (by decide) (by decide)
    (by decide) (by decide) (by decide) (by decide) rfl
    (fun ds h => by simp [matchBytesChars] at h)

/-- C7: every named base kind (`address`, `bool`, `string`, `bytes`,
`array`, `tuple` and the empty string) maps directly to its Coder in the
`switch` before any string-pattern matching is attempted (the `type`
spelling is arbitrary in every conjunct), recursing into the element type
for arrays and into each ordered component for tuples. -/
theorem claim7_named_base_kinds (name ty : String) (alen : Int)
    (ach : Option ParamType) (comps : Option (List ParamType)) :
    getCoder (.mk name ty "address" alen ach comps) = .ok (.address name) ∧
    getCoder (.mk name ty "bool" alen ach comps) = .ok (.bool name) ∧
    getCoder (.mk name ty "string" alen ach comps) = .ok (.string name) ∧
    getCoder (.mk name ty "bytes" alen ach comps) = .ok (.bytes name) ∧
    (∀ child : ParamType,
      getCoder (.mk name ty "array" alen (some child) comps) =
        (getCoder child).map (fun c => .array c alen name)) ∧
    (∀ comps2 : List ParamType,
      getCoder (.mk name ty "tuple" alen ach (some comps2)) =
        (getCoderList comps2).map (fun cs => .tuple cs name)) ∧
    getCoder (.mk name ty "" alen ach comps) = .ok (.null name) := by
  refine ⟨by simp [getCoder], by simp [getCoder], by simp [getCoder], by simp [getCoder],
    fun child => by simp [getCoder, getCoderChild],
    fun comps2 => by simp [getCoder, getCoderComps],
    by simp [getCoder]⟩

/-- C9: a tuple descriptor with absent (`null`) components resolves to a
tuple Coder with zero children, identically to an empty component list. -/
theorem claim9_absent_components (name ty : String) (alen : Int)
    (ach : Option ParamType) :
    getCoder (.mk name ty "tuple" alen ach none) = .ok (.tuple [] name) ∧
    getCoder (.mk name ty "tuple" alen ach none) =
      getCoder (.mk name ty "tuple" alen ach (some [])) := by
  constructor
  · simp [getCoder, getCoderComps, getCoderList, Except.map]
  · simp [getCoder, getCoderComps]

/-- C10: numeric-suffix spellings with leading zeros resolve to the same
Coder as any other spelling of the same kind, same name and same numeric
suffix value - in particular the canonical spelling - for both the
`u?int[0-9]+` and the `bytes[0-9]+` patterns. -/
theorem claim10_leading_zeros :
    (∀ (name ty1 ty2 baseTy1 baseTy2 : String) (alen1 alen2 : Int)
       (ach1 ach2 : Option ParamType) (comps1 comps2 : Option (List ParamType))
       (kind : String) (ds1 ds2 : List Char),
      baseTy1 = ty1 → baseTy2 = ty2 →
      matchNumberChars ty1.data = some (kind, ds1) →
      matchNumberChars ty2.data = some (kind, ds2) →
      ds1 ≠ [] → ds2 ≠ [] → parseDigits ds1 = parseDigits ds2 →
      getCoder (.mk name ty1 baseTy1 alen1 ach1 comps1) =
        getCoder (.mk name ty2 baseTy2 alen2 ach2 comps2)) ∧
    (∀ (name ty1 ty2 baseTy1 baseTy2 : String) (alen1 alen2 : Int)
       (ach1 ach2 : Option ParamType) (comps1 comps2 : Option (List ParamType))
       (ds1 ds2 : List Char),
      baseTy1 = ty1 → baseTy2 = ty2 →
      matchBytesChars ty1.data = some ds1 →
      matchBytesChars ty2.data = some ds2 →
      ds1 ≠ [] → ds2 ≠ [] → parseDigits ds1 = parseDigits ds2 →
      getCoder (.mk name ty1 baseTy1 alen1 ach1 comps1) =
        getCoder (.mk name ty2 baseTy2 alen2 ach2 comps2)) := by
  constructor
  · intro name ty1 ty2 baseTy1 baseTy2 alen1 alen2 ach1 ach2 comps1 comps2 kind ds1 ds2
      hb1 hb2 hm1 hm2 hne1 hne2 hpd
    have e1 : ds1.isEmpty = false := by
      cases ds1 with
      | nil => exact absurd rfl hne1
      | cons a l => rfl
    have e2 : ds2.isEmpty = false := by
      cases ds2 with
      | nil => exact absurd rfl hne2
      | cons a l => rfl
    rw [getCoder_number name alen1 ach1 comps1 hb1 hm1,
      getCoder_number name alen2 ach2 comps2 hb2 hm2]
    simp only [e1, e2, Bool.false_eq_true, if_false, hpd]
  · intro name ty1 ty2 baseTy1 baseTy2 alen1 alen2 ach1 ach2 comps1 comps2 ds1 ds2
      hb1 hb2 hm1 hm2 hne1 hne2 hpd
    rw [getCoder_bytesN name alen1 ach1 comps1 hb1 hm1 hne1,
      getCoder_bytesN name alen2 ach2 comps2 hb2 hm2 hne2]
    rw [hpd]

/-- Witness for C10: `uint032` resolves like `uint32`, and `bytes01`
resolves like `bytes1`. -/
theorem claim10_leading_zeros_witness :
    getCoder (.mk "x" "uint032" "uint032" (-1) none none) =
      getCoder (.mk "x" "uint32" "uint32" (-1) none none) ∧
    getCoder (.mk "x" "bytes01" "bytes01" (-1) none none) =
      getCoder (.mk "x" "bytes1" "bytes1" (-1) none none) := by
  constructor
  · exact claim10_leading_zeros.1 "x" "uint032" "uint32" "uint032" "uint32" (-1) (-1)
      none none none none "uint" ['0','3','2'] ['3','2'] rfl rfl rfl rfl
      (by decide) (by decide) (by decide)
  · exact claim10_leading_zeros.2 "x" "bytes01" "bytes1" "bytes01" "bytes1" (-1) (-1)
      none none none none ['0','1'] ['1'] rfl rfl rfl rfl
      (by decide) (by decide) (by decide)

/-! ## Claims about the public entry points -/

/-- C2: `encode` fails with an invalid-argument condition exactly when one
of its validation stages rejects the inputs (the length check, an
invalid-argument resolution failure, or an invalid-argument rejection of
the values by the resolved coders), and a differing length of the two
lists always triggers the length-mismatch invalid-argument failure first,
before any resolution or encoding work - the error is the same for every
content of the two lists. -/
theorem claim2_encode_invalid_argument (types : List ParamType) (values : List Value) :
    (types.length ≠ values.length →
      encode types values = .error ⟨"types/values length mismatch", .INVALID_ARGUMENT⟩) ∧
    ((∃ e, encode types values = .error e ∧ e.code = .INVALID_ARGUMENT) ↔
      validationRejects types values) := by
  constructor
  · intro h
    unfold encode
    rw [if_pos h]
  · by_cases h : types.length = values.length
    · unfold encode validationRejects
      rw [if_neg (by simp [h])]
      simp only [h, ne_eq, not_true_eq_false, false_or]
      cases hg : getCoderList types with
      | error err =>
        obtain ⟨m, c⟩ := err
        cases c <;> simp [hg, Bind.bind, Except.bind, AbiError.mk.injEq]
      | ok cs =>
        cases henc : encodeValue (.tuple cs "_") (.tup values) with
        | error err =>
          obtain ⟨m, c⟩ := err
          cases c <;> simp [hg, henc, Bind.bind, Except.bind, AbiError.mk.injEq]
        | ok e => simp [hg, henc, Bind.bind, Except.bind]
    · unfold encode validationRejects
      rw [if_pos h]
      simp [h]

/-- Witness for C2: a length mismatch fails even though the (empty) type
list would resolve fine. -/
theorem claim2_encode_invalid_argument_witness :
    encode [] [.boolV true] =
      .error ⟨"types/values length mismatch", .INVALID_ARGUMENT⟩ :=
  (claim2_encode_invalid_argument [] [.boolV true]).1 (by decide)

/-- C6: for matching list lengths, `encode` resolves the types and runs
the encoding of the synthetic unnamed tuple coder `TupleCoder(coders,
"_")` over the value list, and `decode` mirrors this through the same
synthetic tuple coder construction. -/
theorem claim6_synthetic_tuple (types : List ParamType) (values : List Value)
    (data : List Nat) (h : types.length = values.length) :
    encode types values =
      ((getCoderList types).bind (fun cs => encodeValue (.tuple cs "_") (.tup values))) ∧
    decode types data =
      ((getCoderList types).bind (fun cs =>
        (decodeValue (.tuple cs "_") data 0).map (fun r => r.1))) := by
  constructor
  · unfold encode
    rw [if_neg (by simp [h])]
    cases hg : getCoderList types with
    | error e => simp [hg, Bind.bind, Except.bind]
    | ok cs => simp [hg, Bind.bind, Except.bind]
  · unfold decode
    cases hg : getCoderList types with
    | error e => simp [hg, Bind.bind, Except.bind]
    | ok cs =>
      cases hd : decodeValue (.tuple cs "_") data 0 with
      | error e => simp [hg, hd, Bind.bind, Except.bind, Except.map]
      | ok r => simp [hg, hd, Bind.bind, Except.bind, Except.map]

/-- Witness for C6 at a one-element type list. -/
theorem claim6_synthetic_tuple_witness :
    encode [.mk "" "bool" "bool" 0 none none] [.boolV true] =
      ((getCoderList [.mk "" "bool" "bool" 0 none none]).bind
        (fun cs => encodeValue (.tuple cs "_") (.tup [.boolV true]))) :=
  (claim6_synthetic_tuple [.mk "" "bool" "bool" 0 none none] [.boolV true] []
    (by decide)).1

/-! ## Length and alignment lemmas -/

theorem beBytes_length : ∀ (k n : Nat), (beBytes k n).length = k := by
  intro k
  induction k with
  | zero => intro n; rfl
  | succ k ih =>
    intro n
    simp [beBytes, ih]

theorem padLen_ge (n : Nat) : n ≤ padLen n := by
  unfold padLen
  omega

theorem padLen_dvd (n : Nat) : 32 ∣ padLen n := by
  unfold padLen
  omega

theorem padRight_length (bs : List Nat) : (padRight bs).length = padLen bs.length := by
  have h := padLen_ge bs.length
  simp [padRight]
  omega

theorem headLen_cons (it : List Nat × Bool) (rest : List (List Nat × Bool)) :
    headLen (it :: rest) = (if it.2 then 32 else it.1.length) + headLen rest := by
  simp [headLen]

theorem tailLen_cons (it : List Nat × Bool) (rest : List (List Nat × Bool)) :
    tailLen (it :: rest) = (if it.2 then it.1.length else 0) + tailLen rest := by
  simp [tailLen]

theorem packAux_fst_length (H : Nat) :
    ∀ (items : List (List Nat × Bool)) (t0 : Nat),
      (packAux H t0 items).1.length = headLen items := by
  intro items
  induction items with
  | nil => intro t0; simp [packAux, headLen]
  | cons it rest ih =>
    intro t0
    obtain ⟨e, d⟩ := it
    rw [headLen_cons]
    cases d <;> simp [packAux, ih, beBytes_length]

theorem packAux_snd_length (H : Nat) :
    ∀ (items : List (List Nat × Bool)) (t0 : Nat),
      (packAux H t0 items).2.length = tailLen items := by
  intro items
  induction items with
  | nil => intro t0; simp [packAux, tailLen]
  | cons it rest ih =>
    intro t0
    obtain ⟨e, d⟩ := it
    rw [tailLen_cons]
    cases d <;> simp [packAux, ih]

theorem pack_length (items : List (List Nat × Bool)) :
    (pack items).length = headLen items + tailLen items := by
  simp [pack, packAux_fst_length, packAux_snd_length]

theorem headLen_dvd : ∀ (items : List (List Nat × Bool)),
    (∀ p ∈ items, 32 ∣ p.1.length) → 32 ∣ headLen items := by
  intro items
  induction items with
  | nil => intro h0; simp [headLen]
  | cons it rest ih =>
    intro h
    rw [headLen_cons]
    have h1 := h it (by simp)
    have h2 := ih (fun p hp => h p (by simp [hp]))
    cases hd : it.2 <;> simp [hd] <;> omega

theorem tailLen_dvd : ∀ (items : List (List Nat × Bool)),
    (∀ p ∈ items, 32 ∣ p.1.length) → 32 ∣ tailLen items := by
  intro items
  induction items with
  | nil => intro h0; simp [tailLen]
  | cons it rest ih =>
    intro h
    rw [tailLen_cons]
    have h1 := h it (by simp)
    have h2 := ih (fun p hp => h p (by simp [hp]))
    cases hd : it.2 <;> simp [hd] <;> omega

/-! ## C8: output alignment -/

/-- Every coder tree produced by `_getCoder` satisfies `Coder.sizesOk`
(joint induction with the list version, over a size bound). -/
theorem getCoder_sizesOk_aux : ∀ (n : Nat),
    (∀ (p : ParamType) (c : Coder), sizeOf p < n → getCoder p = .ok c → c.sizesOk = true) ∧
    (∀ (ps : List ParamType) (cs : List Coder), sizeOf ps < n →
      getCoderList ps = .ok cs → Coder.sizesOkList cs = true) := by
  intro n
  induction n with
  | zero => exact ⟨fun p c h => absurd h (by omega), fun ps cs h => absurd h (by omega)⟩
  | succ n ih =>
    constructor
    · intro p c hsz h
      obtain ⟨nm, ty, bty, alen, ach, comps⟩ := p
      simp only [getCoder] at h
      split at h
      · injection h with h; subst h; simp [Coder.sizesOk]
      · split at h
        · injection h with h; subst h; simp [Coder.sizesOk]
        · split at h
          · injection h with h; subst h; simp [Coder.sizesOk]
          · split at h
            · injection h with h; subst h; simp [Coder.sizesOk]
            · split at h
              · -- array branch
                cases hach : ach with
                | none => rw [hach] at h; simp [getCoderChild, Except.map] at h
                | some child =>
                  rw [hach] at h
                  simp only [getCoderChild] at h
                  cases hc : getCoder child with
                  | error e => rw [hc] at h; simp [Except.map] at h
                  | ok c0 =>
                    rw [hc] at h
                    simp only [Except.map, Except.ok.injEq] at h
                    subst h
                    have hwf := (ih.1) child c0 (by
                      subst hach
                      simp only [ParamType.mk.sizeOf_spec, Option.some.sizeOf_spec] at hsz ⊢
                      omega) hc
                    simp [Coder.sizesOk, hwf]
              · split at h
                · -- tuple branch
                  cases hcomps : comps with
                  | none =>
                    rw [hcomps] at h
                    simp only [getCoderComps, getCoderList] at h
                    simp only [Except.map, Except.ok.injEq] at h
                    subst h
                    simp [Coder.sizesOk, Coder.sizesOkList]
                  | some ps =>
                    rw [hcomps] at h
                    simp only [getCoderComps] at h
                    cases hl : getCoderList ps with
                    | error e => rw [hl] at h; simp [Except.map] at h
                    | ok cs0 =>
                      rw [hl] at h
                      simp only [Except.map, Except.ok.injEq] at h
                      subst h
                      have hwf := (ih.2) ps cs0 (by
                        subst hcomps
                        simp only [ParamType.mk.sizeOf_spec, Option.some.sizeOf_spec] at hsz ⊢
                        omega) hl
                      simp [Coder.sizesOk, hwf]
                · split at h
                  · injection h with h; subst h; simp [Coder.sizesOk]
                  · -- regex branches
                    cases hmn : matchNumberChars ty.data with
                    | some kd =>
                      obtain ⟨kind, ds⟩ := kd
                      rw [hmn] at h
                      dsimp only at h
                      split at h
                      all_goals split at h
                      all_goals
                        first
                          | exact Except.noConfusion h
                          | (injection h with h; subst h; simp [Coder.sizesOk])
                    | none =>
                      rw [hmn] at h
                      dsimp only at h
                      cases hmb : matchBytesChars ty.data with
                      | some ds =>
                        rw [hmb] at h
                        dsimp only at h
                        split at h
                        · injection h with h; subst h; simp [Coder.sizesOk]
                        · split at h
                          · exact Except.noConfusion h
                          · rename_i hcond
                            injection h with h
                            subst h
                            simp [Coder.sizesOk]
                            omega
                      | none =>
                        rw [hmb] at h
                        exact Except.noConfusion h
    · intro ps cs hsz h
      cases ps with
      | nil =>
        simp only [getCoderList, Except.ok.injEq] at h
        subst h
        rfl
      | cons p ps0 =>
        simp only [getCoderList] at h
        cases hc : getCoder p with
        | error e => rw [hc] at h; simp [Bind.bind, Except.bind] at h
        | ok c0 =>
          rw [hc] at h
          cases hl : getCoderList ps0 with
          | error e => rw [hl] at h; simp [Bind.bind, Except.bind] at h
          | ok cs0 =>
            rw [hl] at h
            simp only [Bind.bind, Except.bind, Except.ok.injEq] at h
            subst h
            have h1 := (ih.1) p c0 (by
              simp only [List.cons.sizeOf_spec] at hsz
              omega) hc
            have h2 := (ih.2) ps0 cs0 (by
              simp only [List.cons.sizeOf_spec] at hsz
              omega) hl
            simp [Coder.sizesOkList, h1, h2]

/-- Each member encoding produced by `encodeSeq` has word-aligned length,
given the induction hypothesis for smaller coder/value pairs. -/
theorem encodeSeq_items_dvd {n : Nat}
    (ih : ∀ (c : Coder) (v : Value), sizeOf c + sizeOf v < n → c.sizesOk = true →
      ∀ e, encodeValue c v = .ok e → 32 ∣ e.length)
    (c : Coder) (hwf : c.sizesOk = true) :
    ∀ (vs : List Value) (items : List (List Nat × Bool)),
      sizeOf c + sizeOf vs < n →
      encodeSeq c vs = .ok items → ∀ p ∈ items, 32 ∣ p.1.length := by
  intro vs
  induction vs with
  | nil =>
    intro items hsz he p hp
    simp only [encodeSeq, Except.ok.injEq] at he
    subst he
    simp at hp
  | cons v vs ihl =>
    intro items hsz he p hp
    simp only [encodeSeq] at he
    cases h1 : encodeValue c v with
    | error err => rw [h1] at he; simp [Bind.bind, Except.bind] at he
    | ok e1 =>
      rw [h1] at he
      cases h2 : encodeSeq c vs with
      | error err => rw [h2] at he; simp [Bind.bind, Except.bind] at he
      | ok rest =>
        rw [h2] at he
        simp only [Bind.bind, Except.bind, Except.ok.injEq] at he
        subst he
        simp only [List.cons.sizeOf_spec] at hsz
        rcases List.mem_cons.mp hp with hph | hpt
        · subst hph
          exact ih c v (by omega) hwf e1 h1
        · exact ihl rest (by omega) h2 p hpt

theorem encodeParts_items_dvd {n : Nat}
    (ih : ∀ (c : Coder) (v : Value), sizeOf c + sizeOf v < n → c.sizesOk = true →
      ∀ e, encodeValue c v = .ok e → 32 ∣ e.length) :
    ∀ (cs : List Coder) (vs : List Value) (items : List (List Nat × Bool)),
      Coder.sizesOkList cs = true →
      sizeOf cs + sizeOf vs < n →
      encodeParts cs vs = .ok items → ∀ p ∈ items, 32 ∣ p.1.length := by
  intro cs
  induction cs with
  | nil =>
    intro vs items hwf hsz he p hp
    cases vs with
    | nil =>
      simp only [encodeParts, Except.ok.injEq] at he
      subst he
      simp at hp
    | cons v vs =>
      simp only [encodeParts] at he
      exact Except.noConfusion he
  | cons c cs ihl =>
    intro vs items hwf hsz he p hp
    cases vs with
    | nil =>
      simp only [encodeParts] at he
      exact Except.noConfusion he
    | cons v vs =>
      simp only [encodeParts] at he
      cases h1 : encodeValue c v with
      | error err => rw [h1] at he; simp [Bind.bind, Except.bind] at he
      | ok e1 =>
        rw [h1] at he
        cases h2 : encodeParts cs vs with
        | error err => rw [h2] at he; simp [Bind.bind, Except.bind] at he
        | ok rest =>
          rw [h2] at he
          simp only [Bind.bind, Except.bind, Except.ok.injEq] at he
          subst he
          simp only [List.cons.sizeOf_spec] at hsz
          simp only [Coder.sizesOkList, Bool.and_eq_true] at hwf
          rcases List.mem_cons.mp hp with hph | hpt
          · subst hph
            exact ih c v (by omega) hwf.1 e1 h1
          · exact ihl vs rest hwf.2 (by omega) h2 p hpt

/-- A successful `encodeValue` on a size-correct coder always produces a
byte list whose length is a multiple of 32. -/
theorem encLen_dvd_aux : ∀ (n : Nat) (c : Coder) (v : Value), sizeOf c + sizeOf v < n →
    c.sizesOk = true → ∀ e, encodeValue c v = .ok e → 32 ∣ e.length := by
  intro n
  induction n with
  | zero => intro c v h; omega
  | succ n ih =>
    intro c v hsz hwf e he
    cases c with
    | address nm =>
      cases v <;> try (simp only [encodeValue] at he; exact Except.noConfusion he)
      rename_i a
      simp only [encodeValue] at he
      split at he
      · injection he with he
        subst he
        simp [beBytes_length]
      · exact Except.noConfusion he
    | bool nm =>
      cases v <;> try (simp only [encodeValue] at he; exact Except.noConfusion he)
      rename_i b
      simp only [encodeValue] at he
      injection he with he
      subst he
      simp [beBytes_length]
    | string nm =>
      cases v <;> try (simp only [encodeValue] at he; exact Except.noConfusion he)
      rename_i bs
      simp only [encodeValue] at he
      injection he with he
      subst he
      have := padLen_dvd bs.length
      simp only [List.length_append, beBytes_length, padRight_length]
      omega
    | bytes nm =>
      cases v <;> try (simp only [encodeValue] at he; exact Except.noConfusion he)
      rename_i bs
      simp only [encodeValue] at he
      injection he with he
      subst he
      have := padLen_dvd bs.length
      simp only [List.length_append, beBytes_length, padRight_length]
      omega
    | number w signed nm =>
      cases v <;> try (simp only [encodeValue] at he; exact Except.noConfusion he)
      rename_i i
      simp only [encodeValue] at he
      split at he
      all_goals split at he
      all_goals
        first
          | exact Except.noConfusion he
          | (injection he with he; subst he; simp [beBytes_length])
    | fixedBytes sz nm =>
      cases v <;> try (simp only [encodeValue] at he; exact Except.noConfusion he)
      rename_i bs
      simp only [encodeValue] at he
      simp only [Coder.sizesOk, decide_eq_true_eq] at hwf
      split at he
      · rename_i hlen
        injection he with he
        subst he
        simp only [List.length_append, List.length_replicate]
        omega
      · exact Except.noConfusion he
    | fixedBytesNaN nm =>
      cases v <;> (simp only [encodeValue] at he; exact Except.noConfusion he)
    | null nm =>
      cases v <;> try (simp only [encodeValue] at he; exact Except.noConfusion he)
      simp only [encodeValue] at he
      injection he with he
      subst he
      simp
    | array c0 alen nm =>
      cases v <;> try (simp only [encodeValue] at he; exact Except.noConfusion he)
      rename_i vs
      simp only [encodeValue] at he
      have hc0 : c0.sizesOk = true := by
        simpa only [Coder.sizesOk] using hwf
      have hszc : sizeOf c0 + sizeOf vs < n := by
        simp only [Coder.array.sizeOf_spec, Value.arr.sizeOf_spec] at hsz
        omega
      split at he
      · cases hs : encodeSeq c0 vs with
        | error err => rw [hs] at he; simp [Except.map] at he
        | ok items =>
          rw [hs] at he
          simp only [Except.map, Except.ok.injEq] at he
          subst he
          have hd := encodeSeq_items_dvd ih c0 hc0 vs items hszc hs
          have h1 := headLen_dvd items hd
          have h2 := tailLen_dvd items hd
          simp only [List.length_append, beBytes_length, pack_length]
          omega
      · split at he
        · cases hs : encodeSeq c0 vs with
          | error err => rw [hs] at he; simp [Except.map] at he
          | ok items =>
            rw [hs] at he
            simp only [Except.map, Except.ok.injEq] at he
            subst he
            have hd := encodeSeq_items_dvd ih c0 hc0 vs items hszc hs
            have h1 := headLen_dvd items hd
            have h2 := tailLen_dvd items hd
            rw [pack_length]
            omega
        · exact Except.noConfusion he
    | tuple cs0 nm =>
      cases v <;> try (simp only [encodeValue] at he; exact Except.noConfusion he)
      rename_i vs
      simp only [encodeValue] at he
      have hc0 : Coder.sizesOkList cs0 = true := by
        simpa only [Coder.sizesOk] using hwf
      have hszc : sizeOf cs0 + sizeOf vs < n := by
        simp only [Coder.tuple.sizeOf_spec, Value.tup.sizeOf_spec] at hsz
        omega
      cases hs : encodeParts cs0 vs with
      | error err => rw [hs] at he; simp [Except.map] at he
      | ok items =>
        rw [hs] at he
        simp only [Except.map, Except.ok.injEq] at he
        subst he
        have hd := encodeParts_items_dvd ih cs0 vs items hc0 hszc hs
        have h1 := headLen_dvd items hd
        have h2 := tailLen_dvd items hd
        rw [pack_length]
        omega

/-- C8: whenever `encode` succeeds, the length in bytes of the returned
buffer is a multiple of 32. -/
theorem claim8_output_alignment (types : List ParamType) (values : List Value)
    (out : List Nat) (h : encode types values = .ok out) : out.length % 32 = 0 := by
  unfold encode at h
  split at h
  · exact Except.noConfusion h
  · cases hg : getCoderList types with
    | error e => rw [hg] at h; simp [Bind.bind, Except.bind] at h
    | ok cs =>
      rw [hg] at h
      simp only [Bind.bind, Except.bind] at h
      have hwf : Coder.sizesOkList cs = true :=
        (getCoder_sizesOk_aux (sizeOf types + 1)).2 types cs (by omega) hg
      have hdvd := encLen_dvd_aux (sizeOf (Coder.tuple cs "_") + sizeOf (Value.tup values) + 1)
        (.tuple cs "_") (.tup values) (by omega)
        (by simp only [Coder.sizesOk]; exact hwf) out h
      omega

/-- Witness for C8 at `encode ["bool"] [true]`. -/
theorem claim8_output_alignment_witness : (beBytes 32 1).length % 32 = 0 :=
  claim8_output_alignment [.mk "" "bool" "bool" 0 none none] [.boolV true] (beBytes 32 1)
    (by simp [encode, getCoderList, getCoder, encodeValue, encodeParts, pack, packAux,
      headLen, Coder.isDynamic, beBytes, Bind.bind, Except.bind, Except.map])

/-! ## Big-endian words and two's-complement arithmetic -/

theorem fromBE_foldl (ys : List Nat) : ∀ (a : Nat),
    ys.foldl (fun x b => 256 * x + b) a = a * 256 ^ ys.length + fromBE ys := by
  induction ys with
  | nil => intro a; simp [fromBE]
  | cons y ys ih =>
    intro a
    have h1 := ih (256 * a + y)
    have h2 := ih y
    simp only [List.foldl_cons] at *
    rw [h1]
    have h3 : fromBE (y :: ys) = y * 256 ^ ys.length + fromBE ys := by
      unfold fromBE
      simpa using h2
    rw [h3]
    simp [List.length_cons, pow_succ]
    ring

theorem fromBE_append (xs ys : List Nat) :
    fromBE (xs ++ ys) = fromBE xs * 256 ^ ys.length + fromBE ys := by
  unfold fromBE
  rw [List.foldl_append]
  exact fromBE_foldl ys _

theorem fromBE_singleton (y : Nat) : fromBE [y] = y := by
  simp [fromBE]

theorem fromBE_beBytes (k : Nat) : ∀ (n : Nat), fromBE (beBytes k n) = n % 256 ^ k := by
  induction k with
  | zero => intro n; simp [beBytes, fromBE, Nat.mod_one]
  | succ k ih =>
    intro n
    rw [beBytes, fromBE_append, fromBE_singleton, ih]
    simp only [List.length_singleton, pow_one]
    have h1 : 256 ^ (k + 1) = 256 * 256 ^ k := by
      rw [pow_succ]
      ring
    rw [h1, Nat.mod_mul]
    ring

theorem pow256_32 : (256 : Nat) ^ 32 = 2 ^ 256 := by
  have h : (2 : Nat) ^ 256 = (2 ^ 8) ^ 32 := by
    rw [← pow_mul]
  rw [h]
  norm_num

theorem fromBE_beBytes_self {n : Nat} (h : n < 2 ^ 256) : fromBE (beBytes 32 n) = n := by
  rw [fromBE_beBytes, pow256_32, Nat.mod_eq_of_lt h]

theorem intToTwos_lt (i : Int) : intToTwos i < 2 ^ 256 := by
  unfold intToTwos
  have h1 : (0 : Int) < 2 ^ 256 := by positivity
  have h2 := Int.emod_lt_of_pos i h1
  omega

theorem intToTwos_unsigned {w : Nat} {i : Int} (h2 : w ≤ 32) (h0 : 0 ≤ i)
    (hhi : i < 2 ^ (8 * w)) : (intToTwos i : Int) = i := by
  unfold intToTwos
  have hle : (2 : Int) ^ (8 * w) ≤ 2 ^ 256 := by
    apply pow_le_pow_right₀
    · norm_num
    · omega
  have hmod : i % (2 ^ 256 : Int) = i := Int.emod_eq_of_lt h0 (lt_of_lt_of_le hhi hle)
  rw [hmod, Int.toNat_of_nonneg h0]

theorem fromTwos_intToTwos {w : Nat} {i : Int} (h1 : 1 ≤ w) (h2 : w ≤ 32)
    (hlo : -(2 ^ (8 * w - 1) : Int) ≤ i) (hhi : i < 2 ^ (8 * w - 1)) :
    fromTwos w (intToTwos i) = i := by
  unfold fromTwos intToTwos
  have hsplit : 8 * w = 8 * w - 1 + 1 := by omega
  have hM2 : (2 : Int) ^ (8 * w) = 2 ^ (8 * w - 1) * 2 := by
    nth_rewrite 1 [hsplit]
    rw [pow_succ]
  have hMB : ((2 : Int) ^ (8 * w)) ∣ 2 ^ 256 := pow_dvd_pow 2 (by omega)
  have hBpos : (0 : Int) < 2 ^ 256 := by positivity
  have hMhpos : (0 : Int) < 2 ^ (8 * w - 1) := by positivity
  have hb1 : 0 ≤ i % (2 ^ 256 : Int) := Int.emod_nonneg i (by positivity)
  have hcast : ((2 ^ (8 * w) : Nat) : Int) = (2 : Int) ^ (8 * w) := by
    push_cast
    rfl
  have hcasth : ((2 ^ (8 * w - 1) : Nat) : Int) = (2 : Int) ^ (8 * w - 1) := by
    push_cast
    rfl
  have hkey : (((i % (2 ^ 256 : Int)).toNat % 2 ^ (8 * w) : Nat) : Int) = i % 2 ^ (8 * w) := by
    rw [Int.ofNat_emod, Int.toNat_of_nonneg hb1, hcast, Int.emod_emod_of_dvd i hMB]
  by_cases hpos : 0 ≤ i
  · have hiM : i % (2 ^ (8 * w) : Int) = i := by
      apply Int.emod_eq_of_lt hpos
      omega
    have hlt : ((i % (2 ^ 256 : Int)).toNat % 2 ^ (8 * w) : Nat) < 2 ^ (8 * w - 1) := by
      omega
    rw [if_pos hlt, hkey, hiM]
  · push_neg at hpos
    have ha : (i + 2 ^ (8 * w) * 1) % (2 ^ (8 * w) : Int) = i % 2 ^ (8 * w) :=
      Int.add_mul_emod_self_left i (2 ^ (8 * w)) 1
    have hb : (i + 2 ^ (8 * w)) % (2 ^ (8 * w) : Int) = i + 2 ^ (8 * w) := by
      apply Int.emod_eq_of_lt
      · omega
      · omega
    have hiM : i % (2 ^ (8 * w) : Int) = i + 2 ^ (8 * w) := by
      rw [mul_one] at ha
      omega
    have hge : ¬(((i % (2 ^ 256 : Int)).toNat % 2 ^ (8 * w) : Nat) < 2 ^ (8 * w - 1)) := by
      omega
    rw [if_neg hge]
    have h3 : (((i % (2 ^ 256 : Int)).toNat % 2 ^ (8 * w) : Nat) : Int) = i + 2 ^ (8 * w) := by
      rw [hkey, hiM]
    rw [h3]
    ring

/-! ## Reader lemmas over buffer segments -/

theorem segAt_append {data x y : List Nat} {p : Nat} (h : SegAt data p (x ++ y)) :
    SegAt data p x ∧ SegAt data (p + x.length) y := by
  obtain ⟨htake, hlen⟩ := h
  rw [List.length_append] at hlen htake
  have hx : (data.drop p).take x.length = x := by
    have h1 : ((data.drop p).take (x.length + y.length)).take x.length = x := by
      rw [htake]
      exact List.take_left x y
    rw [List.take_take] at h1
    simpa [Nat.min_def] using h1
  have hy : (data.drop (p + x.length)).take y.length = y := by
    have h1 : ((data.drop p).take (x.length + y.length)).drop x.length = y := by
      rw [htake]
      exact List.drop_left x y
    rw [List.drop_take, List.drop_drop] at h1
    have h2 : x.length + y.length - x.length = y.length := by omega
    rw [h2] at h1
    simpa [Nat.add_comm] using h1
  exact ⟨⟨hx, by omega⟩, ⟨hy, by omega⟩⟩

theorem segAt_nil {data : List Nat} {p : Nat} (h : p ≤ data.length) : SegAt data p [] :=
  ⟨by simp, by simpa using h⟩

theorem segAt_refl (out : List Nat) : SegAt out 0 out := by
  constructor
  · simp
  · simp

theorem readWord_segAt {data w : List Nat} {p : Nat} (h : SegAt data p w)
    (hl : w.length = 32) : readWord data p = .ok w := by
  obtain ⟨htake, hlen⟩ := h
  unfold readWord
  rw [if_pos (by omega)]
  rw [← hl, htake]

theorem readBytesAt_segAt {data bs : List Nat} {p : Nat} (h : SegAt data p (padRight bs)) :
    readBytesAt data p bs.length = .ok bs := by
  obtain ⟨htake, hlen⟩ := h
  rw [padRight_length] at hlen
  have hge := padLen_ge bs.length
  unfold readBytesAt
  rw [if_pos (by omega)]
  have h1 : ((data.drop p).take (padRight bs).length).take bs.length = (padRight bs).take bs.length := by
    rw [htake]
  rw [List.take_take] at h1
  have h2 : min bs.length (padRight bs).length = bs.length := by
    rw [padRight_length]
    omega
  rw [h2] at h1
  rw [h1]
  unfold padRight
  rw [List.take_left]

/-! ## Structural lemmas for the composite walk -/

theorem encodeValue_tuple_name (a b : String) (cs : List Coder) (vs : List Value) :
    encodeValue (.tuple cs a) (.tup vs) = encodeValue (.tuple cs b) (.tup vs) := by
  simp [encodeValue]

theorem encodeValue_array_name (a b : String) (c : Coder) (len : Int) (vs : List Value) :
    encodeValue (.array c len a) (.arr vs) = encodeValue (.array c len b) (.arr vs) := by
  simp [encodeValue]

theorem tailLen_zero_parts : ∀ (cs : List Coder) (vs : List Value)
    (items : List (List Nat × Bool)), Coder.anyDynamic cs = false →
    encodeParts cs vs = .ok items → tailLen items = 0 := by
  intro cs
  induction cs with
  | nil =>
    intro vs items hd he
    cases vs with
    | nil =>
      simp only [encodeParts, Except.ok.injEq] at he
      subst he
      rfl
    | cons v vs =>
      simp only [encodeParts] at he
      exact Except.noConfusion he
  | cons c cs ih =>
    intro vs items hd he
    cases vs with
    | nil =>
      simp only [encodeParts] at he
      exact Except.noConfusion he
    | cons v vs =>
      simp only [Coder.anyDynamic, Bool.or_eq_false_iff] at hd
      simp only [encodeParts] at he
      cases h1 : encodeValue c v with
      | error err => rw [h1] at he; simp [Bind.bind, Except.bind] at he
      | ok e1 =>
        rw [h1] at he
        cases h2 : encodeParts cs vs with
        | error err => rw [h2] at he; simp [Bind.bind, Except.bind] at he
        | ok rest =>
          rw [h2] at he
          simp only [Bind.bind, Except.bind, Except.ok.injEq] at he
          subst he
          rw [tailLen_cons]
          have := ih vs rest hd.2 h2
          simp [hd.1, this]

theorem tailLen_zero_seq (c : Coder) (hd : c.isDynamic = false) :
    ∀ (vs : List Value) (items : List (List Nat × Bool)),
    encodeSeq c vs = .ok items → tailLen items = 0 := by
  intro vs
  induction vs with
  | nil =>
    intro items he
    simp only [encodeSeq, Except.ok.injEq] at he
    subst he
    rfl
  | cons v vs ih =>
    intro items he
    simp only [encodeSeq] at he
    cases h1 : encodeValue c v with
    | error err => rw [h1] at he; simp [Bind.bind, Except.bind] at he
    | ok e1 =>
      rw [h1] at he
      cases h2 : encodeSeq c vs with
      | error err => rw [h2] at he; simp [Bind.bind, Except.bind] at he
      | ok rest =>
        rw [h2] at he
        simp only [Bind.bind, Except.bind, Except.ok.injEq] at he
        subst he
        rw [tailLen_cons]
        have := ih rest h2
        simp [hd, this]

theorem validParts_length : ∀ (cs : List Coder) (vs : List Value),
    validParts cs vs = true → cs.length = vs.length := by
  intro cs
  induction cs with
  | nil =>
    intro vs h
    cases vs with
    | nil => rfl
    | cons v vs => simp [validParts] at h
  | cons c cs ih =>
    intro vs h
    cases vs with
    | nil => simp [validParts] at h
    | cons v vs =>
      simp only [validParts, Bool.and_eq_true] at h
      simp [ih vs h.2]

theorem getCoderList_length : ∀ (types : List ParamType) (cs : List Coder),
    getCoderList types = .ok cs → types.length = cs.length := by
  intro types
  induction types with
  | nil =>
    intro cs h
    simp only [getCoderList, Except.ok.injEq] at h
    subst h
    rfl
  | cons p ps ih =>
    intro cs h
    simp only [getCoderList] at h
    cases h1 : getCoder p with
    | error err => rw [h1] at h; simp [Bind.bind, Except.bind] at h
    | ok c0 =>
      rw [h1] at h
      cases h2 : getCoderList ps with
      | error err => rw [h2] at h; simp [Bind.bind, Except.bind] at h
      | ok cs0 =>
        rw [h2] at h
        simp only [Bind.bind, Except.bind, Except.ok.injEq] at h
        subst h
        simp [ih cs0 h2]

/-! ## C1: round trip -/

/-- Decoding the head region written by the head/tail layout (§4.7)
recovers the tuple member values: the cursor walks the head, static
members are decoded inline, and each dynamic member is reached through
its composite-relative offset word. -/
theorem decodeParts_correct {n : Nat}
    (ih : ∀ (c : Coder) (v : Value), sizeOf c + sizeOf v < n → validV c v = true →
      ∀ (e data : List Nat) (pos : Nat), encodeValue c v = .ok e → SegAt data pos e →
      ∃ q, decodeValue c data pos = .ok (v, q) ∧ (c.isDynamic = false → q = pos + e.length)) :
    ∀ (cs : List Coder) (vs : List Value) (items : List (List Nat × Bool))
      (data : List Nat) (base t0 H : Nat),
      sizeOf cs + sizeOf vs < n →
      validParts cs vs = true →
      encodeParts cs vs = .ok items →
      headLen items ≤ H →
      H + t0 + tailLen items < 2 ^ 256 →
      SegAt data (base + (H - headLen items)) (packAux H t0 items).1 →
      SegAt data (base + H + t0) (packAux H t0 items).2 →
      decodeParts cs data base (base + (H - headLen items)) = .ok (vs, base + H) := by
  intro cs
  induction cs with
  | nil =>
    intro vs items data base t0 H hsz hval he hH hB hsegH hsegT
    cases vs with
    | cons v vs => simp [validParts] at hval
    | nil =>
      simp only [encodeParts, Except.ok.injEq] at he
      subst he
      simp only [decodeParts, headLen]
      simp
  | cons c cs ihl =>
    intro vs items data base t0 H hsz hval he hH hB hsegH hsegT
    cases vs with
    | nil => simp [validParts] at hval
    | cons v vs =>
      simp only [encodeParts] at he
      cases h1 : encodeValue c v with
      | error err => rw [h1] at he; simp [Bind.bind, Except.bind] at he
      | ok e1 =>
        rw [h1] at he
        cases h2 : encodeParts cs vs with
        | error err => rw [h2] at he; simp [Bind.bind, Except.bind] at he
        | ok rest =>
          rw [h2] at he
          simp only [Bind.bind, Except.bind, Except.ok.injEq] at he
          subst he
          simp only [validParts, Bool.and_eq_true] at hval
          simp only [List.cons.sizeOf_spec] at hsz
          cases hdyn : c.isDynamic with
          | true =>
            rw [hdyn] at hsegH hsegT hH hB
            simp only [packAux, headLen_cons, tailLen_cons, if_true] at hsegH hsegT hH hB
            obtain ⟨hw, hh2⟩ := segAt_append hsegH
            obtain ⟨hte, ht2⟩ := segAt_append hsegT
            rw [beBytes_length] at hh2
            simp only [decodeParts, hdyn, headLen_cons, tailLen_cons, if_true]
            rw [readWord_segAt hw (beBytes_length 32 _)]
            simp only [Bind.bind, Except.bind]
            have hoff : fromBE (beBytes 32 (H + t0)) = H + t0 :=
              fromBE_beBytes_self (by omega)
            rw [hoff]
            have hte2 : SegAt data (base + (H + t0)) e1 := by
              rw [← Nat.add_assoc]
              exact hte
            obtain ⟨q, hq, _⟩ := ih c v (by omega) hval.1 e1 data (base + (H + t0)) h1 hte2
            rw [hq]
            have hcur : base + (H - (32 + headLen rest)) + 32 = base + (H - headLen rest) := by
              omega
            rw [hcur] at hh2 ⊢
            have hpos : base + H + (t0 + e1.length) = base + H + t0 + e1.length := by
              omega
            have ht3 : SegAt data (base + H + (t0 + e1.length))
                (packAux H (t0 + e1.length) rest).2 := by
              rw [hpos]
              exact ht2
            have hrec := ihl vs rest data base (t0 + e1.length) H (by omega) hval.2 h2
              (by omega) (by omega) hh2 ht3
            rw [hrec]
          | false =>
            rw [hdyn] at hsegH hsegT hH hB
            simp only [packAux, headLen_cons, tailLen_cons, Bool.false_eq_true, if_false]
              at hsegH hsegT hH hB
            obtain ⟨hse, hh2⟩ := segAt_append hsegH
            obtain ⟨q, hq, hqeq⟩ := ih c v (by omega) hval.1 e1 data
              (base + (H - (e1.length + headLen rest))) h1 hse
            simp only [decodeParts, hdyn, headLen_cons, tailLen_cons, Bool.false_eq_true,
              if_false]
            rw [hq]
            simp only [Bind.bind, Except.bind]
            have hcur : q = base + (H - headLen rest) := by
              rw [hqeq hdyn]
              omega
            rw [hcur]
            have hcur2 : base + (H - (e1.length + headLen rest)) + e1.length =
                base + (H - headLen rest) := by
              omega
            rw [hcur2] at hh2
            have hrec := ihl vs rest data base t0 H (by omega) hval.2 h2
              (by omega) (by omega) hh2 hsegT
            rw [hrec]

/-- The array analogue of `decodeParts_correct`: decoding `count`
elements with one element coder from a head/tail layout recovers the
element values. -/
theorem decodeSeq_correct {n : Nat}
    (ih : ∀ (c : Coder) (v : Value), sizeOf c + sizeOf v < n → validV c v = true →
      ∀ (e data : List Nat) (pos : Nat), encodeValue c v = .ok e → SegAt data pos e →
      ∃ q, decodeValue c data pos = .ok (v, q) ∧ (c.isDynamic = false → q = pos + e.length))
    (c : Coder) :
    ∀ (vs : List Value) (items : List (List Nat × Bool))
      (data : List Nat) (base t0 H : Nat),
      sizeOf c + sizeOf vs < n →
      validSeq c vs = true →
      encodeSeq c vs = .ok items →
      headLen items ≤ H →
      H + t0 + tailLen items < 2 ^ 256 →
      SegAt data (base + (H - headLen items)) (packAux H t0 items).1 →
      SegAt data (base + H + t0) (packAux H t0 items).2 →
      decodeSeq c vs.length data base (base + (H - headLen items)) = .ok (vs, base + H) := by
  intro vs
  induction vs with
  | nil =>
    intro items data base t0 H hsz hval he hH hB hsegH hsegT
    simp only [encodeSeq, Except.ok.injEq] at he
    subst he
    simp only [List.length_nil, decodeSeq, headLen]
    simp
  | cons v vs ihl =>
    intro items data base t0 H hsz hval he hH hB hsegH hsegT
    simp only [encodeSeq] at he
    cases h1 : encodeValue c v with
    | error err => rw [h1] at he; simp [Bind.bind, Except.bind] at he
    | ok e1 =>
      rw [h1] at he
      cases h2 : encodeSeq c vs with
      | error err => rw [h2] at he; simp [Bind.bind, Except.bind] at he
      | ok rest =>
        rw [h2] at he
        simp only [Bind.bind, Except.bind, Except.ok.injEq] at he
        subst he
        simp only [validSeq, Bool.and_eq_true] at hval
        simp only [List.cons.sizeOf_spec] at hsz
        rw [List.length_cons]
        cases hdyn : c.isDynamic with
        | true =>
          rw [hdyn] at hsegH hsegT hH hB
          simp only [packAux, headLen_cons, tailLen_cons, if_true] at hsegH hsegT hH hB
          obtain ⟨hw, hh2⟩ := segAt_append hsegH
          obtain ⟨hte, ht2⟩ := segAt_append hsegT
          rw [beBytes_length] at hh2
          simp only [decodeSeq, hdyn, headLen_cons, tailLen_cons, if_true]
          rw [readWord_segAt hw (beBytes_length 32 _)]
          simp only [Bind.bind, Except.bind]
          have hoff : fromBE (beBytes 32 (H + t0)) = H + t0 :=
            fromBE_beBytes_self (by omega)
          rw [hoff]
          have hte2 : SegAt data (base + (H + t0)) e1 := by
            rw [← Nat.add_assoc]
            exact hte
          obtain ⟨q, hq, _⟩ := ih c v (by omega) hval.1 e1 data (base + (H + t0)) h1 hte2
          rw [hq]
          have hcur : base + (H - (32 + headLen rest)) + 32 = base + (H - headLen rest) := by
            omega
          rw [hcur] at hh2 ⊢
          have hpos : base + H + (t0 + e1.length) = base + H + t0 + e1.length := by
            omega
          have ht3 : SegAt data (base + H + (t0 + e1.length))
              (packAux H (t0 + e1.length) rest).2 := by
            rw [hpos]
            exact ht2
          have hrec := ihl rest data base (t0 + e1.length) H (by omega) hval.2 h2
            (by omega) (by omega) hh2 ht3
          rw [hrec]
        | false =>
          rw [hdyn] at hsegH hsegT hH hB
          simp only [packAux, headLen_cons, tailLen_cons, Bool.false_eq_true, if_false]
            at hsegH hsegT hH hB
          obtain ⟨hse, hh2⟩ := segAt_append hsegH
          obtain ⟨q, hq, hqeq⟩ := ih c v (by omega) hval.1 e1 data
            (base + (H - (e1.length + headLen rest))) h1 hse
          simp only [decodeSeq, hdyn, headLen_cons, tailLen_cons, Bool.false_eq_true,
            if_false]
          rw [hq]
          simp only [Bind.bind, Except.bind]
          have hcur : q = base + (H - headLen rest) := by
            rw [hqeq hdyn]
            omega
          rw [hcur]
          have hcur2 : base + (H - (e1.length + headLen rest)) + e1.length =
              base + (H - headLen rest) := by
            omega
          rw [hcur2] at hh2
          have hrec := ihl rest data base t0 H (by omega) hval.2 h2
            (by omega) (by omega) hh2 hsegT
          rw [hrec]

/-- Decoding mirrors encoding: for every coder and every value in its
valid domain, decoding the encoded bytes (at any position of any
enclosing buffer) returns the original value, and a static coder leaves
the cursor exactly past its encoding. -/
theorem decode_encode_aux : ∀ (n : Nat) (c : Coder) (v : Value), sizeOf c + sizeOf v < n →
    validV c v = true →
    ∀ (e data : List Nat) (pos : Nat), encodeValue c v = .ok e → SegAt data pos e →
    ∃ q, decodeValue c data pos = .ok (v, q) ∧ (c.isDynamic = false → q = pos + e.length) := by
  intro n
  induction n with
  | zero => intro c v h; omega
  | succ n ih =>
    intro c v hsz hval e data pos he hseg
    cases c with
    | address nm =>
      cases v <;> try (simp only [validV] at hval; exact Bool.noConfusion hval)
      rename_i a
      simp only [validV, decide_eq_true_eq] at hval
      simp only [encodeValue] at he
      rw [if_pos hval] at he
      injection he with he
      subst he
      simp only [decodeValue]
      rw [readWord_segAt hseg (beBytes_length 32 a)]
      simp only [Bind.bind, Except.bind]
      have ha : fromBE (beBytes 32 a) = a :=
        fromBE_beBytes_self (lt_trans hval (by norm_num))
      rw [ha, if_pos hval]
      exact ⟨pos + 32, rfl, fun _ => by rw [beBytes_length]⟩
    | bool nm =>
      cases v <;> try (simp only [validV] at hval; exact Bool.noConfusion hval)
      rename_i b
      simp only [encodeValue] at he
      injection he with he
      subst he
      simp only [decodeValue]
      rw [readWord_segAt hseg (beBytes_length 32 _)]
      simp only [Bind.bind, Except.bind]
      have hb : fromBE (beBytes 32 (if b = true then 1 else 0)) = (if b = true then 1 else 0) :=
        fromBE_beBytes_self (by cases b <;> norm_num)
      rw [hb]
      cases b
      · exact ⟨pos + 32, rfl, fun _ => by rw [beBytes_length]⟩
      · exact ⟨pos + 32, rfl, fun _ => by rw [beBytes_length]⟩
    | string nm =>
      cases v <;> try (simp only [validV] at hval; exact Bool.noConfusion hval)
      rename_i bs
      simp only [validV, Bool.and_eq_true, List.all_eq_true, decide_eq_true_eq] at hval
      simp only [encodeValue] at he
      injection he with he
      subst he
      obtain ⟨hw, hpad⟩ := segAt_append hseg
      rw [beBytes_length] at hpad
      simp only [decodeValue]
      rw [readWord_segAt hw (beBytes_length 32 _)]
      simp only [Bind.bind, Except.bind]
      have hlen : fromBE (beBytes 32 bs.length) = bs.length :=
        fromBE_beBytes_self (by have := hval.2; omega)
      rw [hlen, readBytesAt_segAt hpad]
      simp only [Bind.bind, Except.bind]
      exact ⟨pos + 32 + padLen bs.length, rfl, fun h => by simp [Coder.isDynamic] at h⟩
    | bytes nm =>
      cases v <;> try (simp only [validV] at hval; exact Bool.noConfusion hval)
      rename_i bs
      simp only [validV, Bool.and_eq_true, List.all_eq_true, decide_eq_true_eq] at hval
      simp only [encodeValue] at he
      injection he with he
      subst he
      obtain ⟨hw, hpad⟩ := segAt_append hseg
      rw [beBytes_length] at hpad
      simp only [decodeValue]
      rw [readWord_segAt hw (beBytes_length 32 _)]
      simp only [Bind.bind, Except.bind]
      have hlen : fromBE (beBytes 32 bs.length) = bs.length :=
        fromBE_beBytes_self (by have := hval.2; omega)
      rw [hlen, readBytesAt_segAt hpad]
      simp only [Bind.bind, Except.bind]
      exact ⟨pos + 32 + padLen bs.length, rfl, fun h => by simp [Coder.isDynamic] at h⟩
    | number w signed nm =>
      cases v <;> try (simp only [validV] at hval; exact Bool.noConfusion hval)
      rename_i i
      cases hs : signed
      · rw [hs] at hval he
        simp only [validV, Bool.and_eq_true, decide_eq_true_eq, Bool.false_eq_true,
          if_false] at hval
        simp only [encodeValue, Bool.false_eq_true, if_false] at he
        rw [if_pos hval.2] at he
        injection he with he
        subst he
        simp only [decodeValue, Bool.false_eq_true, if_false]
        rw [readWord_segAt hseg (beBytes_length 32 _)]
        simp only [Bind.bind, Except.bind]
        rw [fromBE_beBytes_self (intToTwos_lt i)]
        rw [intToTwos_unsigned hval.1.2 hval.2.1 hval.2.2]
        exact ⟨pos + 32, rfl, fun _ => by rw [beBytes_length]⟩
      · rw [hs] at hval he
        simp only [validV, Bool.and_eq_true, decide_eq_true_eq, if_true] at hval
        simp only [encodeValue, if_true] at he
        rw [if_pos hval.2] at he
        injection he with he
        subst he
        simp only [decodeValue, if_true]
        rw [readWord_segAt hseg (beBytes_length 32 _)]
        simp only [Bind.bind, Except.bind]
        rw [fromBE_beBytes_self (intToTwos_lt i)]
        rw [fromTwos_intToTwos hval.1.1 hval.1.2 hval.2.1 hval.2.2]
        exact ⟨pos + 32, rfl, fun _ => by rw [beBytes_length]⟩
    | fixedBytes sz nm =>
      cases v <;> try (simp only [validV] at hval; exact Bool.noConfusion hval)
      rename_i bs
      simp only [validV, Bool.and_eq_true, List.all_eq_true, decide_eq_true_eq] at hval
      obtain ⟨⟨⟨hsz1, hsz2⟩, hblen⟩, hbval⟩ := hval
      simp only [encodeValue] at he
      rw [if_pos hblen] at he
      injection he with he
      subst he
      have hlenE : (bs ++ List.replicate (32 - sz) 0).length = 32 := by
        simp only [List.length_append, List.length_replicate]
        omega
      simp only [decodeValue]
      rw [readWord_segAt hseg hlenE]
      simp only [Bind.bind, Except.bind]
      have htake : (bs ++ List.replicate (32 - sz) 0).take sz = bs := by
        rw [← hblen]
        exact List.take_left bs _
      rw [htake]
      exact ⟨pos + 32, rfl, fun _ => by rw [hlenE]⟩
    | fixedBytesNaN nm =>
      cases v <;> (simp only [validV] at hval; exact Bool.noConfusion hval)
    | null nm =>
      cases v <;> try (simp only [validV] at hval; exact Bool.noConfusion hval)
      simp only [encodeValue] at he
      injection he with he
      subst he
      simp only [decodeValue]
      exact ⟨pos, rfl, fun _ => by simp⟩
    | array c0 len nm =>
      cases v <;> try (simp only [validV] at hval; exact Bool.noConfusion hval)
      rename_i vs
      have he0 := he
      have hszc : sizeOf c0 + sizeOf vs < n := by
        simp only [Coder.array.sizeOf_spec, Value.arr.sizeOf_spec] at hsz
        omega
      simp only [validV, Bool.and_eq_true] at hval
      obtain ⟨⟨hcount, hvseq⟩, hmatch⟩ := hval
      rw [encodeValue_array_name "" nm, he0] at hmatch
      simp only [decide_eq_true_eq] at hmatch
      by_cases hneg : len < 0
      · rw [if_pos hneg] at hcount
        simp only [decide_eq_true_eq] at hcount
        simp only [encodeValue, if_pos hneg] at he
        cases hs : encodeSeq c0 vs with
        | error err => rw [hs] at he; simp [Except.map] at he
        | ok items =>
          rw [hs] at he
          simp only [Except.map, Except.ok.injEq] at he
          subst he
          obtain ⟨hw, hpk⟩ := segAt_append hseg
          rw [beBytes_length] at hpk
          unfold pack at hpk hmatch
          obtain ⟨hph, hpt⟩ := segAt_append hpk
          rw [packAux_fst_length] at hpt
          simp only [List.length_append, beBytes_length, packAux_fst_length,
            packAux_snd_length] at hmatch
          simp only [decodeValue, if_pos hneg]
          rw [readWord_segAt hw (beBytes_length 32 _)]
          simp only [Bind.bind, Except.bind]
          have hvslen : fromBE (beBytes 32 vs.length) = vs.length :=
            fromBE_beBytes_self (by omega)
          rw [hvslen]
          have hph2 : SegAt data (pos + 32 + (headLen items - headLen items))
              (packAux (headLen items) 0 items).1 := by
            have hx : pos + 32 + (headLen items - headLen items) = pos + 32 := by omega
            rw [hx]
            exact hph
          have hpt2 : SegAt data (pos + 32 + headLen items + 0)
              (packAux (headLen items) 0 items).2 := by
            have hx : pos + 32 + headLen items + 0 = pos + 32 + headLen items := by omega
            rw [hx]
            exact hpt
          have hrec := decodeSeq_correct ih c0 vs items data (pos + 32) 0 (headLen items)
            hszc hvseq hs (Nat.le_refl _) (by omega) hph2 hpt2
          have hx : pos + 32 + (headLen items - headLen items) = pos + 32 := by omega
          rw [hx] at hrec
          rw [hrec]
          exact ⟨pos + 32 + headLen items, rfl,
            fun h => by simp [Coder.isDynamic, hneg] at h⟩
      · rw [if_neg hneg] at hcount
        simp only [decide_eq_true_eq] at hcount
        simp only [encodeValue, if_neg hneg] at he
        rw [if_pos hcount] at he
        cases hs : encodeSeq c0 vs with
        | error err => rw [hs] at he; simp [Except.map] at he
        | ok items =>
          rw [hs] at he
          simp only [Except.map, Except.ok.injEq] at he
          subst he
          unfold pack at hseg hmatch
          obtain ⟨hph, hpt⟩ := segAt_append hseg
          rw [packAux_fst_length] at hpt
          simp only [List.length_append, packAux_fst_length, packAux_snd_length] at hmatch
          simp only [decodeValue, if_neg hneg]
          rw [← hcount]
          have hph2 : SegAt data (pos + (headLen items - headLen items))
              (packAux (headLen items) 0 items).1 := by
            have hx : pos + (headLen items - headLen items) = pos := by omega
            rw [hx]
            exact hph
          have hpt2 : SegAt data (pos + headLen items + 0)
              (packAux (headLen items) 0 items).2 := by
            have hx : pos + headLen items + 0 = pos + headLen items := by omega
            rw [hx]
            exact hpt
          have hrec := decodeSeq_correct ih c0 vs items data pos 0 (headLen items)
            hszc hvseq hs (Nat.le_refl _) (by omega) hph2 hpt2
          have hx : pos + (headLen items - headLen items) = pos := by omega
          rw [hx] at hrec
          rw [hrec]
          refine ⟨pos + headLen items, rfl, fun h => ?_⟩
          simp only [Coder.isDynamic, Bool.or_eq_false_iff,
            decide_eq_false_iff_not] at h
          have htl : tailLen items = 0 := tailLen_zero_seq c0 h.2 vs items hs
          rw [pack_length items, htl]
          omega
    | tuple cs0 nm =>
      cases v <;> try (simp only [validV] at hval; exact Bool.noConfusion hval)
      rename_i vs
      have he0 := he
      have hszc : sizeOf cs0 + sizeOf vs < n := by
        simp only [Coder.tuple.sizeOf_spec, Value.tup.sizeOf_spec] at hsz
        omega
      simp only [validV, Bool.and_eq_true] at hval
      obtain ⟨hvparts, hmatch⟩ := hval
      rw [encodeValue_tuple_name "" nm, he0] at hmatch
      simp only [decide_eq_true_eq] at hmatch
      simp only [encodeValue] at he
      cases hs : encodeParts cs0 vs with
      | error err => rw [hs] at he; simp [Except.map] at he
      | ok items =>
        rw [hs] at he
        simp only [Except.map, Except.ok.injEq] at he
        subst he
        unfold pack at hseg hmatch
        obtain ⟨hph, hpt⟩ := segAt_append hseg
        rw [packAux_fst_length] at hpt
        simp only [List.length_append, packAux_fst_length, packAux_snd_length] at hmatch
        simp only [decodeValue]
        have hph2 : SegAt data (pos + (headLen items - headLen items))
            (packAux (headLen items) 0 items).1 := by
          have hx : pos + (headLen items - headLen items) = pos := by omega
          rw [hx]
          exact hph
        have hpt2 : SegAt data (pos + headLen items + 0)
            (packAux (headLen items) 0 items).2 := by
          have hx : pos + headLen items + 0 = pos + headLen items := by omega
          rw [hx]
          exact hpt
        have hrec := decodeParts_correct ih cs0 vs items data pos 0 (headLen items)
          hszc hvparts hs (Nat.le_refl _) (by omega) hph2 hpt2
        have hx : pos + (headLen items - headLen items) = pos := by omega
        rw [hx] at hrec
        rw [hrec]
        simp only [Bind.bind, Except.bind]
        refine ⟨pos + headLen items, rfl, fun h => ?_⟩
        simp only [Coder.isDynamic] at h
        have htl : tailLen items = 0 := tailLen_zero_parts cs0 vs items h hs
        rw [pack_length items, htl]
        omega

/-- C1: for every type list and every matching value list within each
type's valid domain (`validV`, §8), `encode` succeeds and `decode` of its
output returns exactly the original values (identity coercion; no
coercion hook is modelled). -/
theorem claim1_round_trip (types : List ParamType) (values : List Value) (cs : List Coder)
    (hres : getCoderList types = .ok cs)
    (hval : validV (.tuple cs "_") (.tup values) = true) :
    ∃ out, encode types values = .ok out ∧ decode types out = .ok (.tup values) := by
  have hv2 := hval
  simp only [validV, Bool.and_eq_true] at hv2
  obtain ⟨hvparts, hmatch⟩ := hv2
  cases henc : encodeValue (.tuple cs "_") (.tup values) with
  | error err =>
    rw [encodeValue_tuple_name "" "_", henc] at hmatch
    simp at hmatch
  | ok out =>
    have hlen : types.length = values.length := by
      have h1 := getCoderList_length types cs hres
      have h2 := validParts_length cs values hvparts
      omega
    refine ⟨out, ?_, ?_⟩
    · unfold encode
      rw [if_neg (by omega)]
      rw [hres]
      simp only [Bind.bind, Except.bind]
      exact henc
    · unfold decode
      rw [hres]
      simp only [Bind.bind, Except.bind]
      obtain ⟨q, hq, _⟩ := decode_encode_aux
        (sizeOf (Coder.tuple cs "_") + sizeOf (Value.tup values) + 1)
        (.tuple cs "_") (.tup values) (by omega) hval out out 0 henc (segAt_refl out)
      rw [hq]

/-- Witness for C1 at `encode ["bool"] [true]`. -/
theorem claim1_round_trip_witness :
    ∃ out, encode [.mk "" "bool" "bool" 0 none none] [.boolV true] = .ok out ∧
      decode [.mk "" "bool" "bool" 0 none none] out = .ok (.tup [.boolV true]) :=
  claim1_round_trip [.mk "" "bool" "bool" 0 none none] [.boolV true] [.bool ""]
    (by simp [getCoderList, getCoder, Bind.bind, Except.bind])
    (by simp [validV, validParts, encodeValue, encodeParts, pack, packAux, headLen,
      Coder.isDynamic, beBytes, Bind.bind, Except.bind, Except.map])

end Abi
